import Mathlib

/-!
# TurnTabler streaming audio core: formal model and verification

A shallow embedding of the real-time audio streaming core of TurnTabler
(`src/turntabler/`): audio formats, the synthetic and file-backed audio
sources, the WAV streaming header and per-connection generator, the USB
capture loop's error classification, the ring buffer policy, and the
diagnostics engine.  Python floats are modelled as rationals (`ℚ`), byte
strings as `List Nat` (each entry one byte), Python `int` as `Int`/`Nat`,
and `None` results as `Option.none`.  Each embedded function carries a doc
comment naming its Python source.
-/

set_option maxHeartbeats 1000000

/-- `AudioFormat` from `audio_source.py`: sample rate, channel count and bit
depth of the PCM stream. -/
structure AudioFormat where
  sample_rate : Nat
  channels : Nat
  bits_per_sample : Nat

/-- `AudioFormat.bytes_per_sample`: bytes per audio sample over all channels,
`channels * bits_per_sample // 8`. -/
def AudioFormat.bytes_per_sample (f : AudioFormat) : Nat :=
  f.channels * f.bits_per_sample / 8

/-- `AudioFormat.byte_rate`: bytes per second. -/
def AudioFormat.byte_rate (f : AudioFormat) : Nat :=
  f.sample_rate * f.bytes_per_sample

/-- `AudioFormat.block_align`: bytes per sample frame. -/
def AudioFormat.block_align (f : AudioFormat) : Nat :=
  f.bytes_per_sample

/-- `WAVFormat` from `streaming_wav.py`: the streaming module's own format
record, with the same three fields as `AudioFormat`. -/
structure WAVFormat where
  sample_rate : Nat
  channels : Nat
  bits_per_sample : Nat

/-- `WAVFormat.byte_rate`: `sample_rate * channels * bits_per_sample // 8`. -/
def WAVFormat.byte_rate (f : WAVFormat) : Nat :=
  f.sample_rate * f.channels * f.bits_per_sample / 8

/-- `WAVFormat.block_align`: `channels * bits_per_sample // 8`. -/
def WAVFormat.block_align (f : WAVFormat) : Nat :=
  f.channels * f.bits_per_sample / 8

/-- `struct.pack('<H', v)`: two little-endian bytes of a 16-bit value. -/
def pack16 (v : Nat) : List Nat :=
  [v % 256, v / 256 % 256]

/-- `struct.pack('<I', v)`: four little-endian bytes of a 32-bit value. -/
def pack32 (v : Nat) : List Nat :=
  [v % 256, v / 256 % 256, v / 65536 % 256, v / 16777216 % 256]

/-- Little-endian decoding of a four-byte field, the inverse reading of
`struct.pack('<I', _)`. -/
def decode32 (bs : List Nat) : Nat :=
  match bs with
  | [b0, b1, b2, b3] => b0 + 256 * b1 + 65536 * b2 + 16777216 * b3
  | _ => 0

/-- `generate_wav_header` from `streaming_wav.py`: the 44-byte RIFF/WAVE
header; with `infinite = true` both size fields are `0xFFFFFFFF`.  Byte
values of the ASCII tags: RIFF = 82,73,70,70; WAVE = 87,65,86,69;
fmt+space = 102,109,116,32; data = 100,97,116,97. -/
def generate_wav_header (fmt : WAVFormat) (infinite : Bool) : List Nat :=
  let data_size : Nat := if infinite then 4294967295 else 0
  [82, 73, 70, 70] ++ pack32 data_size ++ [87, 65, 86, 69] ++
    [102, 109, 116, 32] ++ pack32 16 ++ pack16 1 ++
    pack16 fmt.channels ++ pack32 fmt.sample_rate ++ pack32 fmt.byte_rate ++
    pack16 fmt.block_align ++ pack16 fmt.bits_per_sample ++
    [100, 97, 116, 97] ++ pack32 data_size

/-- `WAVStreamingServer._generate_stream` from `streaming_wav.py`, per client
connection: yields the infinite header once, then each chunk pulled from the
audio source until the source reports exhaustion (`None`).  The source is
modelled by the list of its successive `read_chunk` results. -/
def generateStream (fmt : WAVFormat) (reads : List (Option (List Nat))) :
    List (List Nat) :=
  generate_wav_header fmt true :: (reads.takeWhile Option.isSome).filterMap id

theorem generate_wav_header_shape (fmt : WAVFormat) :
    generate_wav_header fmt true =
      82 :: 73 :: 70 :: 70 :: 255 :: 255 :: 255 :: 255 ::
      87 :: 65 :: 86 :: 69 :: 102 :: 109 :: 116 :: 32 ::
      16 :: 0 :: 0 :: 0 :: 1 :: 0 ::
      fmt.channels % 256 :: fmt.channels / 256 % 256 ::
      fmt.sample_rate % 256 :: fmt.sample_rate / 256 % 256 ::
      fmt.sample_rate / 65536 % 256 :: fmt.sample_rate / 16777216 % 256 ::
      fmt.byte_rate % 256 :: fmt.byte_rate / 256 % 256 ::
      fmt.byte_rate / 65536 % 256 :: fmt.byte_rate / 16777216 % 256 ::
      fmt.block_align % 256 :: fmt.block_align / 256 % 256 ::
      fmt.bits_per_sample % 256 :: fmt.bits_per_sample / 256 % 256 ::
      100 :: 97 :: 116 :: 97 :: [255, 255, 255, 255] := by
  simp [generate_wav_header, pack16, pack32]

/-- C10: for every valid `AudioFormat` (divisible channel-bit product), the
derived quantities satisfy the exact equations `bytes_per_sample * 8 =
channels * bits_per_sample`, `byte_rate = sample_rate * bytes_per_sample` and
`block_align = bytes_per_sample`; the same equations hold for the streaming
module's `WAVFormat` (whose `block_align` is its bytes-per-sample). -/
theorem audioFormat_derived_quantities (f : AudioFormat) (w : WAVFormat)
    (hf : 0 < f.sample_rate ∧ 0 < f.channels ∧ 0 < f.bits_per_sample)
    (hw : 0 < w.sample_rate ∧ 0 < w.channels ∧ 0 < w.bits_per_sample)
    (hdf : 8 ∣ f.channels * f.bits_per_sample)
    (hdw : 8 ∣ w.channels * w.bits_per_sample) :
    f.bytes_per_sample * 8 = f.channels * f.bits_per_sample ∧
    f.byte_rate = f.sample_rate * f.bytes_per_sample ∧
    f.block_align = f.bytes_per_sample ∧
    w.block_align * 8 = w.channels * w.bits_per_sample ∧
    w.byte_rate = w.sample_rate * w.block_align := by
  refine ⟨?_, rfl, rfl, ?_, ?_⟩
  · rw [AudioFormat.bytes_per_sample, Nat.div_mul_cancel hdf]
  · rw [WAVFormat.block_align, Nat.div_mul_cancel hdw]
  · rw [WAVFormat.byte_rate, WAVFormat.block_align, mul_assoc,
      Nat.mul_div_assoc w.sample_rate hdw]

theorem audioFormat_derived_quantities_witness :
    (⟨48000, 2, 16⟩ : AudioFormat).bytes_per_sample * 8 = 2 * 16 ∧
    (⟨48000, 2, 16⟩ : AudioFormat).byte_rate =
      48000 * (⟨48000, 2, 16⟩ : AudioFormat).bytes_per_sample ∧
    (⟨48000, 2, 16⟩ : AudioFormat).block_align =
      (⟨48000, 2, 16⟩ : AudioFormat).bytes_per_sample ∧
    (⟨44100, 2, 16⟩ : WAVFormat).block_align * 8 = 2 * 16 ∧
    (⟨44100, 2, 16⟩ : WAVFormat).byte_rate =
      44100 * (⟨44100, 2, 16⟩ : WAVFormat).block_align :=
  audioFormat_derived_quantities ⟨48000, 2, 16⟩ ⟨44100, 2, 16⟩
    (by decide) (by decide) (by decide) (by decide)

/-- C2: per client connection the generated byte stream begins with exactly
one header of exactly 44 bytes, whose bytes 0-3 spell RIFF, bytes 8-11 spell
WAVE, and whose two little-endian size fields (bytes 4-7 and 40-43) decode to
0xFFFFFFFF; the header precedes all payload and every later yield is a source
chunk, so the header is never emitted again within the connection. -/
theorem generateStream_header_once (fmt : WAVFormat)
    (reads : List (Option (List Nat))) :
    (generateStream fmt reads).head? = some (generate_wav_header fmt true) ∧
    (generateStream fmt reads).tail =
      (reads.takeWhile Option.isSome).filterMap id ∧
    (generate_wav_header fmt true).length = 44 ∧
    (generate_wav_header fmt true).take 4 = [82, 73, 70, 70] ∧
    ((generate_wav_header fmt true).drop 8).take 4 = [87, 65, 86, 69] ∧
    decode32 (((generate_wav_header fmt true).drop 4).take 4) = 4294967295 ∧
    decode32 (((generate_wav_header fmt true).drop 40).take 4) = 4294967295 := by
  rw [generate_wav_header_shape]
  exact ⟨rfl, rfl, rfl, rfl, rfl, rfl, rfl⟩

/-- Truncation toward zero, the semantics of Python `int()` applied to a
finite float value. -/
def intTrunc (q : ℚ) : Int :=
  if 0 ≤ q then ⌊q⌋ else ⌈q⌉

/-- Little-endian bytes of `struct.pack('<h', v)` for a 16-bit signed value:
the two bytes of the two's-complement representation `v mod 2^16`. -/
def le16 (v : Int) : List Nat :=
  [((v.emod 65536).emod 256).toNat, ((v.emod 65536).ediv 256).toNat]

/-- The per-frame PCM sample values of `SyntheticAudioSource.read_chunk` from
`audio_source.py` (16-bit branch).  `sine n` abstracts the float value
`math.sin(2 * math.pi * frequency * n / sample_rate)` at sample index `n`;
the code multiplies it by the amplitude, scales by 32767, truncates with
`int()` and clamps with `max(-32768, min(32767, _))`, then emits one copy per
channel. -/
def synthPcm (amplitude : ℚ) (sine : Nat → ℚ) (channels sample_count num_frames : Nat) :
    List Int :=
  (List.range num_frames).flatMap fun i =>
    let sample_value := sine (sample_count + i) * amplitude
    let pcm_value := intTrunc (sample_value * 32767)
    List.replicate channels (max (-32768) (min 32767 pcm_value))

/-- Result of `SyntheticAudioSource.read_chunk`: `None` (end of stream), a
byte chunk, or the `ValueError` raised for an unsupported bit depth. -/
inductive SynthResult where
  | endOfStream : SynthResult
  | chunk : List Nat → SynthResult
  | formatError : SynthResult
deriving DecidableEq

/-- `SyntheticAudioSource.read_chunk` from `audio_source.py`: returns `None`
when `num_frames <= 0`, raises for a bit depth other than 16, and otherwise
packs the clamped samples as 16-bit little-endian PCM. -/
def synthReadChunk (fmt : AudioFormat) (amplitude : ℚ) (sine : Nat → ℚ)
    (sample_count num_frames : Nat) : SynthResult :=
  if num_frames = 0 then .endOfStream
  else if fmt.bits_per_sample = 16 then
    .chunk ((synthPcm amplitude sine fmt.channels sample_count num_frames).flatMap le16)
  else .formatError

theorem synthPcm_mem (amplitude : ℚ) (sine : Nat → ℚ)
    (channels sample_count num_frames : Nat) (v : Int)
    (hv : v ∈ synthPcm amplitude sine channels sample_count num_frames) :
    ∃ i, v = max (-32768) (min 32767
      (intTrunc (sine (sample_count + i) * amplitude * 32767))) := by
  rw [synthPcm] at hv
  simp only [List.mem_flatMap, List.mem_range] at hv
  obtain ⟨i, _, hrep⟩ := hv
  exact ⟨i, List.eq_of_mem_replicate hrep⟩

/-- C4: every emitted 16-bit sample value of the synthetic source lies in
[-32768, 32767] (hard clamping, any amplitude, any sine values), and a source
with amplitude 0.0 emits only zero bytes. -/
theorem synth_samples_clamped (fmt : AudioFormat) (amplitude : ℚ)
    (sine : Nat → ℚ) (sample_count num_frames : Nat) :
    (∀ v ∈ synthPcm amplitude sine fmt.channels sample_count num_frames,
      -32768 ≤ v ∧ v ≤ 32767) ∧
    (∀ data, synthReadChunk fmt 0 sine sample_count num_frames = .chunk data →
      ∀ b ∈ data, b = 0) := by
  constructor
  · intro v hv
    obtain ⟨i, rfl⟩ := synthPcm_mem _ _ _ _ _ _ hv
    refine ⟨le_max_left _ _, max_le (by norm_num) (min_le_left _ _)⟩
  · intro data hdata b hb
    rw [synthReadChunk] at hdata
    by_cases h0 : num_frames = 0
    · simp [h0] at hdata
    by_cases h16 : fmt.bits_per_sample = 16
    · rw [if_neg h0, if_pos h16] at hdata
      obtain ⟨rfl⟩ := SynthResult.chunk.inj hdata.symm
      rw [List.mem_flatMap] at hb
      obtain ⟨v, hv, hb⟩ := hb
      obtain ⟨i, rfl⟩ := synthPcm_mem _ _ _ _ _ _ hv
      have hz : sine (sample_count + i) * 0 * 32767 = 0 := by ring
      rw [hz] at hb
      have htr : intTrunc 0 = 0 := by simp [intTrunc]
      rw [htr] at hb
      have hm : max (-32768 : Int) (min 32767 0) = 0 := by decide
      rw [hm] at hb
      rw [show le16 0 = [0, 0] from by decide] at hb
      simp at hb
      exact hb
    · rw [if_neg h0, if_neg h16] at hdata
      exact absurd hdata (by intro h; cases h)

theorem synth_samples_clamped_witness :
    (-32768 ≤ (max (-32768) (min 32767
        (intTrunc ((fun _ => (0 : ℚ)) (0 + 0) * 0 * 32767))) : Int) ∧
      (max (-32768) (min 32767
        (intTrunc ((fun _ => (0 : ℚ)) (0 + 0) * 0 * 32767))) : Int) ≤ 32767) ∧
    ∀ b ∈ ([0, 0] : List Nat), b = 0 := by
  constructor
  · refine (synth_samples_clamped ⟨48000, 1, 16⟩ 0 (fun _ => 0) 0 1).1 _ ?_
    rw [synthPcm]
    simp
  · intro b hb
    refine (synth_samples_clamped ⟨48000, 1, 16⟩ 0 (fun _ => 0) 0 1).2
      [0, 0] ?_ b hb
    have hpcm : synthPcm 0 (fun _ => 0) 1 0 1 = [0] := by
      rw [synthPcm, show List.range 1 = [0] from by decide]
      simp only [List.flatMap_cons, List.flatMap_nil, List.append_nil]
      rw [show ((fun _ => (0 : ℚ)) (0 + 0) * 0 * 32767 : ℚ) = 0 by norm_num]
      rw [show intTrunc 0 = 0 from by simp [intTrunc]]
      rw [show max (-32768 : Int) (min 32767 0) = 0 from by decide]
      decide
    rw [synthReadChunk]
    simp only [if_neg one_ne_zero, if_pos rfl]
    rw [hpcm]
    rw [show (([0] : List Int).flatMap le16) = [0, 0] from by decide]
    simp

theorem synthPcm_length (amplitude : ℚ) (sine : Nat → ℚ)
    (channels sample_count num_frames : Nat) :
    (synthPcm amplitude sine channels sample_count num_frames).length =
      num_frames * channels := by
  rw [synthPcm, List.length_flatMap]
  simp [Function.comp_def, List.map_const', List.sum_replicate, mul_comm]

theorem le16_length (v : Int) : (le16 v).length = 2 := rfl

/-- C7 (amended): for a 16-bit format and every positive `num_frames`, the
synthetic source's `read_chunk` returns a byte chunk of exactly
`num_frames * bytes_per_sample` bytes and never the end-of-stream signal;
for `num_frames = 0` the code instead returns `None` (see the
counterexample). -/
theorem synthReadChunk_exact_length (fmt : AudioFormat) (amplitude : ℚ)
    (sine : Nat → ℚ) (sample_count num_frames : Nat)
    (h16 : fmt.bits_per_sample = 16) (hpos : 0 < num_frames) :
    synthReadChunk fmt amplitude sine sample_count num_frames =
      .chunk ((synthPcm amplitude sine fmt.channels sample_count num_frames).flatMap le16) ∧
    ((synthPcm amplitude sine fmt.channels sample_count num_frames).flatMap le16).length =
      num_frames * fmt.bytes_per_sample ∧
    synthReadChunk fmt amplitude sine sample_count num_frames ≠ .endOfStream := by
  have hne : num_frames ≠ 0 := Nat.pos_iff_ne_zero.mp hpos
  have heq : synthReadChunk fmt amplitude sine sample_count num_frames =
      .chunk ((synthPcm amplitude sine fmt.channels sample_count num_frames).flatMap le16) := by
    rw [synthReadChunk, if_neg hne, if_pos h16]
  refine ⟨heq, ?_, ?_⟩
  · rw [List.length_flatMap]
    have hsum : (List.map (List.length ∘ le16)
        (synthPcm amplitude sine fmt.channels sample_count num_frames)).sum =
        (synthPcm amplitude sine fmt.channels sample_count num_frames).length * 2 := by
      simp [Function.comp_def, le16_length, List.map_const', List.sum_replicate]
    rw [hsum, synthPcm_length, AudioFormat.bytes_per_sample, h16]
    have h8 : fmt.channels * 16 / 8 = fmt.channels * 2 := by omega
    rw [h8]
    ring
  · rw [heq]
    intro h
    cases h

theorem synthReadChunk_exact_length_witness :
    synthReadChunk ⟨48000, 2, 16⟩ 0 (fun _ => 0) 0 3 =
      .chunk ((synthPcm 0 (fun _ => 0) 2 0 3).flatMap le16) ∧
    ((synthPcm 0 (fun _ => 0) 2 0 3).flatMap le16).length =
      3 * (⟨48000, 2, 16⟩ : AudioFormat).bytes_per_sample ∧
    synthReadChunk ⟨48000, 2, 16⟩ 0 (fun _ => 0) 0 3 ≠ .endOfStream :=
  synthReadChunk_exact_length ⟨48000, 2, 16⟩ 0 (fun _ => 0) 0 3 rfl (by decide)

/-- C7 counterexample: called with `num_frames = 0` (an argument the claim
quantifies over), `SyntheticAudioSource.read_chunk` on a 16-bit format
returns the end-of-stream signal `None` rather than a zero-length byte
chunk, because of the `if num_frames <= 0: return None` guard. -/
theorem synthReadChunk_zero_frames_eos :
    synthReadChunk ⟨48000, 2, 16⟩ 0 (fun _ => 0) 0 0 = .endOfStream ∧
    ∀ data, synthReadChunk ⟨48000, 2, 16⟩ 0 (fun _ => 0) 0 0 ≠ .chunk data := by
  refine ⟨rfl, fun data h => ?_⟩
  rw [synthReadChunk] at h
  simp at h

/-- The EPIPE errno used by `alsaaudio` for a capture overrun (value 32 on
Linux); `capture_stream` compares the read result against `-EPIPE`. -/
def EPIPE : Int := 32

/-- Outcome of one iteration of the `USBAudioCapture.capture_stream` loop in
`usb_audio_capture.py`, classifying the ALSA read result `length`. -/
inductive CaptureStep where
  | yieldData : List Nat → CaptureStep
  | wait : CaptureStep
  | overrun : CaptureStep
  | fatal : Int → CaptureStep
deriving DecidableEq

/-- One iteration of `USBAudioCapture.capture_stream` from
`usb_audio_capture.py`: `length > 0` yields the data; `length == 0` sleeps
briefly and retries; `length == -EPIPE` increments the overrun counter and
continues; any other negative result raises `CaptureError`.  Returns the
step outcome together with the updated overrun counter. -/
def captureStreamStep (overruns : Nat) (length : Int) (data : List Nat) :
    CaptureStep × Nat :=
  if 0 < length then (.yieldData data, overruns)
  else if length = 0 then (.wait, overruns)
  else if length = -EPIPE then (.overrun, overruns + 1)
  else (.fatal length, overruns)

/-- C5: the capture loop raises a fatal `CaptureError` on a read result iff
the result length is negative and is not the overrun signal `-EPIPE`; on
`-EPIPE` the overrun counter is incremented by exactly one and the loop
continues without raising. -/
theorem captureStreamStep_fatal_iff (overruns : Nat) (length : Int)
    (data : List Nat) :
    ((∃ c, (captureStreamStep overruns length data).1 = .fatal c) ↔
      (length < 0 ∧ length ≠ -EPIPE)) ∧
    (length = -EPIPE →
      captureStreamStep overruns length data = (.overrun, overruns + 1)) := by
  constructor
  · constructor
    · intro ⟨c, hc⟩
      rw [captureStreamStep] at hc
      by_cases h1 : 0 < length
      · rw [if_pos h1] at hc; cases hc
      by_cases h2 : length = 0
      · rw [if_neg h1, if_pos h2] at hc; cases hc
      by_cases h3 : length = -EPIPE
      · rw [if_neg h1, if_neg h2, if_pos h3] at hc; cases hc
      · exact ⟨by omega, h3⟩
    · intro ⟨hneg, hnep⟩
      refine ⟨length, ?_⟩
      rw [captureStreamStep, if_neg (by omega), if_neg (by omega), if_neg hnep]
  · intro hep
    have h1 : ¬ 0 < length := by rw [hep, EPIPE]; omega
    have h2 : length ≠ 0 := by rw [hep, EPIPE]; omega
    rw [captureStreamStep, if_neg h1, if_neg h2, if_pos hep]

theorem captureStreamStep_fatal_iff_witness :
    ((-5 : Int) < 0 ∧ (-5 : Int) ≠ -EPIPE) ∧
    captureStreamStep 7 (-EPIPE) [] = (.overrun, 8) := by
  constructor
  · exact (captureStreamStep_fatal_iff 0 (-5) []).1.mp
      ⟨-5, by rw [captureStreamStep]; norm_num [EPIPE]⟩
  · exact (captureStreamStep_fatal_iff 7 (-EPIPE) []).2 rfl

/-- Modelled from the spec: the Ring Buffer's append operation is not present
under `src/` (spec section 4.3 / section 3, "an ordered sequence of Chunks
bounded at capacity `2 * buffer_size` ... when full, the oldest Chunk is
evicted before a new one is appended (drop-oldest policy)", realised in the
original source as a deque with a fixed maxlen).  `rbAppend cap buf x`
appends `x` to `buf`, first removing the oldest chunk when the append would
exceed the capacity `cap`. -/
def rbAppend (cap : Nat) (buf : List (List Nat)) (x : List Nat) :
    List (List Nat) :=
  if cap < buf.length + 1 then buf.tail ++ [x] else buf ++ [x]

/-- Modelled from the spec: a producer burst, appending a sequence of chunks
one by one with no draining in between. -/
def rbAppendAll (cap : Nat) (buf : List (List Nat)) (cs : List (List Nat)) :
    List (List Nat) :=
  cs.foldl (rbAppend cap) buf

theorem rbAppendAll_eq_drop (cap : Nat) (hcap : 0 < cap) :
    ∀ (cs buf : List (List Nat)), buf.length ≤ cap →
      rbAppendAll cap buf cs = (buf ++ cs).drop (buf.length + cs.length - cap)
  | [], buf, hb => by
    rw [rbAppendAll, List.foldl_nil, List.append_nil]
    rw [show buf.length + [].length - cap = 0 by simp; omega, List.drop_zero]
  | c :: cs, buf, hb => by
    rw [rbAppendAll, List.foldl_cons, ← rbAppendAll]
    by_cases hfull : cap < buf.length + 1
    · have hlen : buf.length = cap := by omega
      have hne : buf ≠ [] := by
        intro h
        rw [h] at hlen
        simp at hlen
        omega
      obtain ⟨b0, bs, rfl⟩ := List.exists_cons_of_ne_nil hne
      have htail : rbAppend cap (b0 :: bs) c = bs ++ [c] := by
        rw [rbAppend, if_pos hfull, List.tail_cons]
      rw [htail]
      have hlen2 : (bs ++ [c]).length ≤ cap := by
        simp at hlen ⊢
        omega
      rw [rbAppendAll_eq_drop cap hcap cs (bs ++ [c]) hlen2]
      have harr : (bs ++ [c]) ++ cs = bs ++ (c :: cs) := by simp
      have hd : ((b0 :: bs) ++ (c :: cs)).drop
            ((b0 :: bs).length + (c :: cs).length - cap) =
          (bs ++ (c :: cs)).drop ((bs ++ [c]).length + cs.length - cap) := by
        have hpos : 0 < (b0 :: bs).length + (c :: cs).length - cap := by
          simp at hlen ⊢
          omega
        obtain ⟨k, hk⟩ : ∃ k, (b0 :: bs).length + (c :: cs).length - cap = k + 1 :=
          ⟨(b0 :: bs).length + (c :: cs).length - cap - 1, by omega⟩
        rw [hk, List.cons_append, List.drop_succ_cons]
        have hk2 : (bs ++ [c]).length + cs.length - cap = k := by
          simp at hk ⊢
          omega
        rw [hk2]
      rw [hd, harr]
    · have happ : rbAppend cap buf c = buf ++ [c] := by
        rw [rbAppend, if_neg hfull]
      rw [happ]
      have hlen2 : (buf ++ [c]).length ≤ cap := by simp; omega
      rw [rbAppendAll_eq_drop cap hcap cs (buf ++ [c]) hlen2]
      have harr : (buf ++ [c]) ++ cs = buf ++ (c :: cs) := by simp
      have hidx : (buf ++ [c]).length + cs.length - cap =
          buf.length + (c :: cs).length - cap := by simp; omega
      rw [harr, hidx]

/-- C3 (spec-modelled): starting from any reachable buffer (length at most
`2 * buffer_size`), appending any burst of chunks leaves exactly the most
recent chunks — the buffer equals the concatenation with precisely the
oldest overflow dropped — and its length never exceeds `2 * buffer_size`. -/
theorem ringBuffer_drop_oldest (buffer_size : Nat) (buf cs : List (List Nat))
    (hbs : 0 < buffer_size) (hb : buf.length ≤ 2 * buffer_size) :
    rbAppendAll (2 * buffer_size) buf cs =
      (buf ++ cs).drop (buf.length + cs.length - 2 * buffer_size) ∧
    (rbAppendAll (2 * buffer_size) buf cs).length ≤ 2 * buffer_size := by
  have heq := rbAppendAll_eq_drop (2 * buffer_size) (by omega) cs buf hb
  refine ⟨heq, ?_⟩
  rw [heq, List.length_drop, List.length_append]
  omega

theorem ringBuffer_drop_oldest_witness :
    rbAppendAll 2 [] [[0], [1], [2]] =
      (([] : List (List Nat)) ++ [[0], [1], [2]]).drop (0 + 3 - 2) ∧
    (rbAppendAll 2 [] [[0], [1], [2]]).length ≤ 2 := by
  have h := ringBuffer_drop_oldest 1 [] [[0], [1], [2]] (by decide) (by decide)
  simpa using h

/-- `StreamingDiagnostics` from `diagnostics.py`: the mutable state of the
diagnostics engine — sample series, anomaly timestamp series, counters,
thresholds and timing fields.  Python floats are modelled as rationals. -/
structure StreamingDiagnostics where
  enabled : Bool
  summary_interval : ℚ
  chunk_sizes : List Int
  chunk_timestamps : List ℚ
  read_latencies : List ℚ
  yield_latencies : List ℚ
  thread_overheads : List ℚ
  inter_yield_gaps : List ℚ
  buffer_occupancies : List Int
  small_chunk_times : List ℚ
  slow_read_times : List ℚ
  slow_yield_times : List ℚ
  large_gap_times : List ℚ
  buffer_underrun_times : List ℚ
  total_bytes : Int
  total_chunks : Int
  overruns : Nat
  expected_chunk_size : Int
  slow_read_threshold_ms : ℚ
  slow_yield_threshold_ms : ℚ
  small_chunk_threshold : Int
  large_gap_threshold_ms : ℚ
  buffer_underrun_threshold : Int
  start_time : ℚ
  last_summary_time : ℚ
  last_chunk_time : ℚ
  last_yield_time : ℚ

/-- `StreamingDiagnostics.record_chunk_read` from `diagnostics.py`; `now` is
the value of `time.time()` at the call.  Returns unchanged state when the
`enabled` flag is false. -/
def record_chunk_read (d : StreamingDiagnostics) (now : ℚ) (size : Int)
    (read_latency_ms : ℚ) : StreamingDiagnostics :=
  if d.enabled = false then d
  else
    let elapsed := now - d.start_time
    { d with
      chunk_sizes := d.chunk_sizes ++ [size]
      chunk_timestamps := d.chunk_timestamps ++ [elapsed]
      read_latencies := d.read_latencies ++ [read_latency_ms]
      total_bytes := d.total_bytes + size
      total_chunks := d.total_chunks + 1
      small_chunk_times :=
        if size < d.small_chunk_threshold then d.small_chunk_times ++ [elapsed]
        else d.small_chunk_times
      slow_read_times :=
        if d.slow_read_threshold_ms < read_latency_ms then
          d.slow_read_times ++ [elapsed]
        else d.slow_read_times
      last_chunk_time := now }

/-- `StreamingDiagnostics.record_yield` from `diagnostics.py`. -/
def record_yield (d : StreamingDiagnostics) (now : ℚ) (yield_latency_ms : ℚ)
    (thread_overhead_ms : ℚ) : StreamingDiagnostics :=
  if d.enabled = false then d
  else
    let elapsed := now - d.start_time
    let gap_ms := (now - d.last_yield_time) * 1000
    { d with
      yield_latencies := d.yield_latencies ++ [yield_latency_ms]
      thread_overheads :=
        if 0 < thread_overhead_ms then d.thread_overheads ++ [thread_overhead_ms]
        else d.thread_overheads
      slow_yield_times :=
        if d.slow_yield_threshold_ms < yield_latency_ms then
          d.slow_yield_times ++ [elapsed]
        else d.slow_yield_times
      inter_yield_gaps :=
        if 0 < d.last_yield_time then d.inter_yield_gaps ++ [gap_ms]
        else d.inter_yield_gaps
      large_gap_times :=
        if 0 < d.last_yield_time ∧ d.large_gap_threshold_ms < gap_ms then
          d.large_gap_times ++ [elapsed]
        else d.large_gap_times
      last_yield_time := now }

/-- `StreamingDiagnostics.record_buffer_occupancy` from `diagnostics.py`. -/
def record_buffer_occupancy (d : StreamingDiagnostics) (now : ℚ)
    (occupancy : Int) : StreamingDiagnostics :=
  if d.enabled = false then d
  else
    { d with
      buffer_occupancies := d.buffer_occupancies ++ [occupancy]
      buffer_underrun_times :=
        if occupancy < d.buffer_underrun_threshold then
          d.buffer_underrun_times ++ [now - d.start_time]
        else d.buffer_underrun_times }

/-- `StreamingDiagnostics.record_overrun` from `diagnostics.py`. -/
def record_overrun (d : StreamingDiagnostics) : StreamingDiagnostics :=
  if d.enabled = false then d
  else { d with overruns := d.overruns + 1 }

/-- C8: when the `enabled` flag is false, every recording operation leaves
the entire diagnostics state unchanged — no sample list grows and no counter
changes. -/
theorem diagnostics_inert_when_disabled (d : StreamingDiagnostics) (now : ℚ)
    (size : Int) (read_latency_ms yield_latency_ms thread_overhead_ms : ℚ)
    (occupancy : Int) (hdis : d.enabled = false) :
    record_chunk_read d now size read_latency_ms = d ∧
    record_yield d now yield_latency_ms thread_overhead_ms = d ∧
    record_buffer_occupancy d now occupancy = d ∧
    record_overrun d = d := by
  refine ⟨?_, ?_, ?_, ?_⟩
  · rw [record_chunk_read, if_pos hdis]
  · rw [record_yield, if_pos hdis]
  · rw [record_buffer_occupancy, if_pos hdis]
  · rw [record_overrun, if_pos hdis]

theorem diagnostics_inert_when_disabled_witness :
    record_overrun
      ⟨false, 60, [], [], [], [], [], [], [], [], [], [], [], [], 0, 0, 0,
        8192, 51, 100, 4096, 100, 1, 0, 0, 0, 0⟩ =
      ⟨false, 60, [], [], [], [], [], [], [], [], [], [], [], [], 0, 0, 0,
        8192, 51, 100, 4096, 100, 1, 0, 0, 0, 0⟩ :=
  (diagnostics_inert_when_disabled
    ⟨false, 60, [], [], [], [], [], [], [], [], [], [], [], [], 0, 0, 0,
      8192, 51, 100, 4096, 100, 1, 0, 0, 0, 0⟩
    0 0 0 0 0 0 rfl).2.2.2

/-- `slow_yield_pct` as computed in `periodic_summary` and
`_generate_recommendations` in `diagnostics.py`:
`len(slow_yield_times) / len(yield_latencies) * 100` when any yield latency
has been recorded, else 0.  The Python float division is exact here in the
sense that the comparison against the threshold 5 agrees with the exact
rational value for all realistic sample counts. -/
def slowYieldPct (d : StreamingDiagnostics) : ℚ :=
  if d.yield_latencies.length = 0 then 0
  else (d.slow_yield_times.length : ℚ) / (d.yield_latencies.length : ℚ) * 100

/-- `sum(1 for t in ts if t > cutoff)` as used for the recent-anomaly counts
in `periodic_summary`; `cutoff` is `elapsed - interval`. -/
def recentCount (ts : List ℚ) (cutoff : ℚ) : Nat :=
  (ts.filter fun t => cutoff < t).length

/-- `recent_underrun` in `periodic_summary` from `diagnostics.py`: buffer
underruns are counted only when `slow_yield_pct > 5`. -/
def recent_underrun (d : StreamingDiagnostics) (cutoff : ℚ) : Nat :=
  if 5 < slowYieldPct d then recentCount d.buffer_underrun_times cutoff else 0

/-- `total_anomalies` in `periodic_summary` from `diagnostics.py`. -/
def total_anomalies (d : StreamingDiagnostics) (cutoff : ℚ) : Nat :=
  recentCount d.small_chunk_times cutoff + recentCount d.slow_read_times cutoff +
    recentCount d.slow_yield_times cutoff + recentCount d.large_gap_times cutoff +
    recent_underrun d cutoff

/-- The buffer-underrun branch of `_generate_recommendations` from
`diagnostics.py`: an underrun recommendation is emitted exactly when some
underrun was recorded, some yield latency was recorded, and
`slow_yield_pct > 5`. -/
def underrun_recommended (d : StreamingDiagnostics) : Prop :=
  d.buffer_underrun_times ≠ [] ∧ d.yield_latencies ≠ [] ∧ 5 < slowYieldPct d

theorem slowYieldPct_gt_iff (d : StreamingDiagnostics) :
    5 < slowYieldPct d ↔
      d.yield_latencies.length < 20 * d.slow_yield_times.length ∧
        d.yield_latencies ≠ [] := by
  rw [slowYieldPct]
  by_cases hy : d.yield_latencies.length = 0
  · rw [if_pos hy]
    have hnil : d.yield_latencies = [] := List.length_eq_zero.mp hy
    simp [hnil]
  · rw [if_neg hy]
    have hpos : (0 : ℚ) < (d.yield_latencies.length : ℚ) := by
      exact_mod_cast Nat.pos_of_ne_zero hy
    rw [div_mul_eq_mul_div, lt_div_iff₀ hpos]
    have hcast : ((5 : ℚ) * (d.yield_latencies.length : ℚ) <
          (d.slow_yield_times.length : ℚ) * 100) ↔
        5 * d.yield_latencies.length < d.slow_yield_times.length * 100 := by
      exact_mod_cast Iff.rfl
    rw [hcast]
    constructor
    · intro h
      exact ⟨by omega, fun hnil => hy (by rw [hnil]; rfl)⟩
    · intro ⟨h, _⟩
      omega

/-- C9: recorded buffer-underrun events contribute to the periodic summary's
anomaly total and to the final report's recommendations only when the slow
yields exceed 5% of all recorded yield latencies (`20 * slow >` total); when
the fraction is at most the threshold the underrun contribution is zero, no
matter how many low-occupancy events were recorded. -/
theorem underrun_gated_by_slow_yields (d : StreamingDiagnostics) (cutoff : ℚ) :
    (slowYieldPct d ≤ 5 ↔
      (20 * d.slow_yield_times.length ≤ d.yield_latencies.length ∨
        d.yield_latencies = [])) ∧
    (20 * d.slow_yield_times.length ≤ d.yield_latencies.length ∨
        d.yield_latencies = [] →
      recent_underrun d cutoff = 0 ∧
      total_anomalies d cutoff =
        recentCount d.small_chunk_times cutoff +
          recentCount d.slow_read_times cutoff +
          recentCount d.slow_yield_times cutoff +
          recentCount d.large_gap_times cutoff ∧
      ¬ underrun_recommended d) ∧
    (d.yield_latencies.length < 20 * d.slow_yield_times.length ∧
        d.yield_latencies ≠ [] →
      recent_underrun d cutoff = recentCount d.buffer_underrun_times cutoff ∧
      (d.buffer_underrun_times ≠ [] → underrun_recommended d)) := by
  have hiff := slowYieldPct_gt_iff d
  have hle : slowYieldPct d ≤ 5 ↔
      (20 * d.slow_yield_times.length ≤ d.yield_latencies.length ∨
        d.yield_latencies = []) := by
    rw [← not_lt, hiff]
    constructor
    · intro h
      by_cases hnil : d.yield_latencies = []
      · exact Or.inr hnil
      · left
        by_contra hcon
        exact h ⟨by omega, hnil⟩
    · rintro (h | h) ⟨hlt, hne⟩
      · omega
      · exact hne h
  refine ⟨hle, ?_, ?_⟩
  · intro h
    have hnot : ¬ 5 < slowYieldPct d := not_lt.mpr (hle.mpr h)
    refine ⟨?_, ?_, ?_⟩
    · rw [recent_underrun, if_neg hnot]
    · rw [total_anomalies, recent_underrun, if_neg hnot]
      omega
    · intro ⟨_, _, hgt⟩
      exact hnot hgt
  · intro h
    have hgt : 5 < slowYieldPct d := hiff.mpr h
    refine ⟨?_, fun hne => ⟨hne, h.2, hgt⟩⟩
    rw [recent_underrun, if_pos hgt]

theorem underrun_gated_by_slow_yields_witness :
    (recent_underrun
        ⟨true, 60, [], [], [], [], [], [], [], [], [], [], [], [3], 0, 0, 0,
          8192, 51, 100, 4096, 100, 1, 0, 0, 0, 0⟩ 0 = 0 ∧
      total_anomalies
        ⟨true, 60, [], [], [], [], [], [], [], [], [], [], [], [3], 0, 0, 0,
          8192, 51, 100, 4096, 100, 1, 0, 0, 0, 0⟩ 0 =
        recentCount [] 0 + recentCount [] 0 + recentCount [] 0 +
          recentCount [] 0 ∧
      ¬ underrun_recommended
        ⟨true, 60, [], [], [], [], [], [], [], [], [], [], [], [3], 0, 0, 0,
          8192, 51, 100, 4096, 100, 1, 0, 0, 0, 0⟩) ∧
    (recent_underrun
        ⟨true, 60, [], [], [], [1], [], [], [], [], [], [2], [], [3], 0, 0, 0,
          8192, 51, 100, 4096, 100, 1, 0, 0, 0, 0⟩ 0 =
      recentCount [3] 0 ∧
      (([3] : List ℚ) ≠ [] → underrun_recommended
        ⟨true, 60, [], [], [], [1], [], [], [], [], [], [2], [], [3], 0, 0, 0,
          8192, 51, 100, 4096, 100, 1, 0, 0, 0, 0⟩)) := by
  constructor
  · exact (underrun_gated_by_slow_yields
      ⟨true, 60, [], [], [], [], [], [], [], [], [], [], [], [3], 0, 0, 0,
        8192, 51, 100, 4096, 100, 1, 0, 0, 0, 0⟩ 0).2.1 (by left; decide)
  · have h := (underrun_gated_by_slow_yields
      ⟨true, 60, [], [], [], [1], [], [], [], [], [], [2], [], [3], 0, 0, 0,
        8192, 51, 100, 4096, 100, 1, 0, 0, 0, 0⟩ 0).2.2
      ⟨by decide, by decide⟩
    exact ⟨h.1, fun _ => h.2 (by decide)⟩

/-- `StreamingDiagnostics._percentile` from `diagnostics.py`: sorts a copy of
the samples and returns the element at 0-indexed position
`int(len * percentile / 100)` clamped to `len - 1`, or 0.0 for empty data.
The Python float division is exact with respect to the integer truncation
for all realistic sample counts, so it is modelled by natural division. -/
def percentile (data : List ℚ) (p : Nat) : ℚ :=
  if data = [] then 0
  else
    let sorted_data := List.insertionSort (· ≤ ·) data
    let index := min (data.length * p / 100) (data.length - 1)
    sorted_data.getD index 0

/-- The nearest-rank percentile exactly as the specification words it: the
element at 1-indexed rank `ceil(p/100 * n)` of a sorted copy of the samples,
with no interpolation. -/
def nearestRankPercentile (data : List ℚ) (p : Nat) : ℚ :=
  (List.insertionSort (· ≤ ·) data).getD ((data.length * p + 99) / 100 - 1) 0

/-- C6 counterexample: on `[1, 2, 3, 4]` at p50 the code's `_percentile`
returns 3 — the element at 0-indexed `int(4 * 50 / 100) = 2` — while the
nearest-rank percentile of the claim is the element at 1-indexed rank
`ceil(4 * 50 / 100) = 2`, namely 2.  The two disagree whenever `n * p` is a
positive multiple of 100 not exceeding `100 * (n - 1)`. -/
theorem percentile_not_nearest_rank :
    percentile [1, 2, 3, 4] 50 = 3 ∧
    nearestRankPercentile [1, 2, 3, 4] 50 = 2 ∧
    percentile [1, 2, 3, 4] 50 ≠ nearestRankPercentile [1, 2, 3, 4] 50 := by
  refine ⟨by decide, by decide, by decide⟩

/-- C6 (amended): for non-empty data and p in 1..100 the code's percentile is
the element at 0-indexed position `min(floor(n * p / 100), n - 1)` of a
sorted copy — which coincides with the spec's nearest-rank
`ceil(n * p / 100)` (1-indexed) whenever `n * p` is not a multiple of 100 —
it is always one of the samples (no interpolation), it is monotone
non-decreasing in p, and p50 of `[10, 20, 30, 40, 50]` is 30. -/
theorem percentile_floor_rank (data : List ℚ) (p : Nat) (hdata : data ≠ [])
    (hp1 : 1 ≤ p) (hp100 : p ≤ 100) :
    (¬ (100 ∣ data.length * p) →
      percentile data p = nearestRankPercentile data p) ∧
    (∀ q, p ≤ q → percentile data p ≤ percentile data q) ∧
    percentile data p ∈ data ∧
    percentile [10, 20, 30, 40, 50] 50 = 30 := by
  have hn : 0 < data.length := List.length_pos.mpr hdata
  have hlen : (List.insertionSort (· ≤ ·) data).length = data.length :=
    List.length_insertionSort _ data
  have hidx : ∀ r : Nat, min (data.length * r / 100) (data.length - 1) <
      (List.insertionSort (· ≤ ·) data).length := by
    intro r
    rw [hlen]
    omega
  have hval : ∀ r : Nat, percentile data r =
      (List.insertionSort (· ≤ ·) data).get
        ⟨min (data.length * r / 100) (data.length - 1), hidx r⟩ := by
    intro r
    rw [percentile, if_neg hdata]
    exact List.getD_eq_getElem _ 0 (hidx r)
  have hb : data.length * p ≤ data.length * 100 :=
    Nat.mul_le_mul_left _ hp100
  refine ⟨?_, ?_, ?_, by decide⟩
  · intro hnd
    have hle : data.length * p / 100 ≤ data.length - 1 := by omega
    have heq : (data.length * p + 99) / 100 - 1 =
        min (data.length * p / 100) (data.length - 1) := by omega
    rw [hval p, nearestRankPercentile, heq]
    exact (List.getD_eq_getElem _ 0 (hidx p)).symm
  · intro q hpq
    rw [hval p, hval q]
    refine (List.sorted_insertionSort _ data).rel_get_of_le ?_
    have hmono : data.length * p / 100 ≤ data.length * q / 100 :=
      Nat.div_le_div_right (Nat.mul_le_mul_left _ hpq)
    exact Fin.mk_le_mk.mpr (by omega)
  · rw [hval p]
    exact (List.perm_insertionSort (· ≤ ·) data).subset (List.get_mem _ _ _)

theorem percentile_floor_rank_witness :
    (¬ (100 ∣ ([10, 20, 30, 40, 50] : List ℚ).length * 50) →
      percentile [10, 20, 30, 40, 50] 50 =
        nearestRankPercentile [10, 20, 30, 40, 50] 50) ∧
    (∀ q, 50 ≤ q →
      percentile [10, 20, 30, 40, 50] 50 ≤ percentile [10, 20, 30, 40, 50] q) ∧
    percentile [10, 20, 30, 40, 50] 50 ∈ ([10, 20, 30, 40, 50] : List ℚ) ∧
    percentile [10, 20, 30, 40, 50] 50 = 30 :=
  percentile_floor_rank [10, 20, 30, 40, 50] 50 (by decide) (by decide)
    (by decide)

namespace StreamingWavPy

/-- `FileAudioSource.read_chunk` from `streaming_wav.py`.  `region` is the
byte content of the backing file from the located data-start offset to the
end of file, and `pos` the current file position relative to that offset.
`self._file.read(size)` returns `(region.drop pos).take size`; on a short or
empty read with `loop` set, the code seeks back to the data start and reads
`size - len(data)` more bytes, concatenating.  Returns the result
(`None` when not looping) and the new file position. -/
def FileAudioSource.read_chunk (loop : Bool) (region : List Nat)
    (pos size : Nat) : Option (List Nat) × Nat :=
  let data := (region.drop pos).take size
  if data = [] ∨ data.length < size then
    if loop then
      let remainder := region.take (size - data.length)
      (some (data ++ remainder), min (size - data.length) region.length)
    else (none, min (pos + size) region.length)
  else (some data, min (pos + size) region.length)

/-- A sequence of `read_chunk` calls on a looping file source, returning the
list of results and the final file position. -/
def runReads (region : List Nat) : Nat → List Nat → List (Option (List Nat)) × Nat
  | pos, [] => ([], pos)
  | pos, size :: sizes =>
    let r := FileAudioSource.read_chunk true region pos size
    let rest := runReads region r.2 sizes
    (r.1 :: rest.1, rest.2)

end StreamingWavPy

namespace AudioSourcePy

/-- `FileAudioSource.read_chunk` from `audio_source.py`: reads
`num_frames * bytes_per_sample` bytes; only when the first read comes back
empty does it seek to the data start and read once more; a non-empty short
read is returned as is. -/
def FileAudioSource.read_chunk (region : List Nat)
    (bytes_per_sample pos num_frames : Nat) : Option (List Nat) × Nat :=
  let chunk_size := num_frames * bytes_per_sample
  let data := (region.drop pos).take chunk_size
  if data = [] then
    let data2 := region.take chunk_size
    (if data2 = [] then none else some data2, min chunk_size region.length)
  else (some data, min (pos + chunk_size) region.length)

end AudioSourcePy

/-- The bytes of the endlessly looped data region, starting `off` bytes into
the loop, for `n` bytes: byte `k` is `region[(off + k) % region.length]`. -/
def cyclicBytes (region : List Nat) (off n : Nat) : List Nat :=
  (List.range n).map fun k => region.getD ((off + k) % region.length) 0

/-- The expected results of a call sequence on the looped region: chunk `j`
is the next `sizes[j]` bytes of the cyclic stream. -/
def cyclicOuts (region : List Nat) (off : Nat) : List Nat → List (List Nat)
  | [] => []
  | size :: sizes => cyclicBytes region off size :: cyclicOuts region (off + size) sizes

theorem cyclicBytes_length (region : List Nat) (off n : Nat) :
    (cyclicBytes region off n).length = n := by
  simp [cyclicBytes]

theorem cyclicBytes_congr (region : List Nat) (a b n : Nat)
    (h : a % region.length = b % region.length) :
    cyclicBytes region a n = cyclicBytes region b n := by
  have hf : (fun k => region.getD ((a + k) % region.length) 0)
      = fun k => region.getD ((b + k) % region.length) 0 := by
    funext k
    rw [Nat.add_mod, h, ← Nat.add_mod]
  rw [cyclicBytes, cyclicBytes, hf]

theorem cyclicBytes_add (region : List Nat) (off a b : Nat) :
    cyclicBytes region off (a + b) =
      cyclicBytes region off a ++ cyclicBytes region (off + a) b := by
  have hfun : ((fun k => region.getD ((off + k) % region.length) 0) ∘ (a + ·))
      = fun k => region.getD ((off + a + k) % region.length) 0 := by
    funext k
    simp only [Function.comp_apply]
    rw [Nat.add_assoc]
  rw [cyclicBytes, cyclicBytes, cyclicBytes, List.range_add, List.map_append,
    List.map_map, hfun]

theorem cyclicBytes_full (region : List Nat) :
    cyclicBytes region 0 region.length = region := by
  refine List.ext_getElem (by simp [cyclicBytes]) ?_
  intro i h1 h2
  simp only [cyclicBytes, List.getElem_map, List.getElem_range]
  rw [Nat.zero_add, Nat.mod_eq_of_lt h2, List.getD_eq_getElem _ 0 h2]

theorem cyclicBytes_repeat (region : List Nat) (N : Nat) :
    cyclicBytes region 0 (N * region.length) = (List.replicate N region).flatten := by
  induction N with
  | zero => simp [cyclicBytes]
  | succ n ih =>
    rw [Nat.succ_mul, Nat.add_comm, cyclicBytes_add,
      cyclicBytes_congr region (0 + region.length) 0 _
        (by rw [Nat.zero_add, Nat.mod_self, Nat.zero_mod]),
      ih, cyclicBytes_full, List.replicate_succ, List.flatten_cons]

theorem cyclicOuts_flatten (region : List Nat) :
    ∀ (sizes : List Nat) (off : Nat),
      (cyclicOuts region off sizes).flatten = cyclicBytes region off sizes.sum
  | [], off => by
    rw [cyclicOuts, List.flatten_nil, List.sum_nil]
    simp [cyclicBytes]
  | size :: sizes, off => by
    rw [cyclicOuts, List.flatten_cons, cyclicOuts_flatten region sizes (off + size),
      List.sum_cons, cyclicBytes_add]

theorem cyclicOuts_lengths (region : List Nat) :
    ∀ (sizes : List Nat) (off : Nat),
      (cyclicOuts region off sizes).map List.length = sizes
  | [], _ => rfl
  | size :: sizes, off => by
    rw [cyclicOuts, List.map_cons, cyclicBytes_length,
      cyclicOuts_lengths region sizes (off + size)]

theorem read_chunk_cyclic (region : List Nat) (pos size off : Nat)
    (hne : region ≠ []) (hpos : pos ≤ region.length)
    (hmod : pos % region.length = off % region.length)
    (hs1 : 0 < size) (hs2 : size ≤ region.length) :
    (StreamingWavPy.FileAudioSource.read_chunk true region pos size).1 =
      some (cyclicBytes region off size) ∧
    (StreamingWavPy.FileAudioSource.read_chunk true region pos size).2 ≤
      region.length ∧
    (StreamingWavPy.FileAudioSource.read_chunk true region pos size).2 %
      region.length = (off + size) % region.length := by
  have hdl : 0 < region.length := List.length_pos.mpr hne
  have hdlen : ((region.drop pos).take size).length = min size (region.length - pos) := by
    rw [List.length_take, List.length_drop]
  by_cases hcase : pos + size ≤ region.length
  · have hlen : ((region.drop pos).take size).length = size := by omega
    have hcond : ¬((region.drop pos).take size = [] ∨
        ((region.drop pos).take size).length < size) := by
      rintro (h | h)
      · rw [h] at hlen
        simp at hlen
        omega
      · omega
    have hbytes : (region.drop pos).take size = cyclicBytes region off size := by
      refine List.ext_getElem (by rw [hlen, cyclicBytes_length]) ?_
      intro i h1 h2
      rw [hlen] at h1
      simp only [cyclicBytes, List.getElem_map, List.getElem_range]
      have hik : (off + i) % region.length = pos + i := by
        rw [Nat.add_mod, ← hmod, ← Nat.add_mod, Nat.mod_eq_of_lt (by omega)]
      rw [hik, List.getD_eq_getElem _ 0 (by omega)]
      simp [List.getElem_take, List.getElem_drop]
    rw [StreamingWavPy.FileAudioSource.read_chunk]
    simp only [if_neg hcond]
    refine ⟨by rw [hbytes], by simp, ?_⟩
    have hmin : min (pos + size) region.length = pos + size := by omega
    rw [hmin, Nat.add_mod, hmod, ← Nat.add_mod]
  · have hlen : ((region.drop pos).take size).length = region.length - pos := by omega
    have hcond : (region.drop pos).take size = [] ∨
        ((region.drop pos).take size).length < size := Or.inr (by omega)
    have hrem : (region.take (size - ((region.drop pos).take size).length)).length
        = size - (region.length - pos) := by
      rw [List.length_take]
      omega
    have hbytes : (region.drop pos).take size ++
        region.take (size - ((region.drop pos).take size).length) =
        cyclicBytes region off size := by
      refine List.ext_getElem ?_ ?_
      · rw [List.length_append, hrem, hlen, cyclicBytes_length]
        omega
      · intro i h1 h2
        rw [cyclicBytes_length] at h2
        simp only [cyclicBytes, List.getElem_map, List.getElem_range]
        by_cases hi : i < region.length - pos
        · rw [List.getElem_append_left (by omega)]
          have hik : (off + i) % region.length = pos + i := by
            rw [Nat.add_mod, ← hmod, ← Nat.add_mod, Nat.mod_eq_of_lt (by omega)]
          rw [hik, List.getD_eq_getElem _ 0 (by omega)]
          simp [List.getElem_take, List.getElem_drop]
        · rw [List.getElem_append_right (by omega)]
          have hik : (off + i) % region.length = i - (region.length - pos) := by
            have ha : (off + i) % region.length = (pos + i) % region.length := by
              rw [Nat.add_mod, ← hmod, ← Nat.add_mod]
            have hb2 : (pos + i) % region.length =
                (pos + i - region.length) % region.length :=
              Nat.mod_eq_sub_mod (by omega)
            rw [ha, hb2, Nat.mod_eq_of_lt (by omega)]
            omega
          rw [hik, List.getD_eq_getElem _ 0 (by omega)]
          simp only [List.getElem_take]
          congr 1
          omega
    rw [StreamingWavPy.FileAudioSource.read_chunk]
    simp only [if_pos hcond, if_true]
    refine ⟨by rw [hbytes], by simp, ?_⟩
    rw [hlen]
    rw [show min (size - (region.length - pos)) region.length
      = pos + size - region.length from by omega]
    rw [(Nat.mod_eq_sub_mod (show region.length ≤ pos + size by omega)).symm]
    rw [Nat.add_mod, hmod, ← Nat.add_mod]

theorem runReads_cyclic (region : List Nat) (hne : region ≠ []) :
    ∀ (sizes : List Nat) (pos off : Nat), pos ≤ region.length →
      pos % region.length = off % region.length →
      (∀ s ∈ sizes, 0 < s ∧ s ≤ region.length) →
      (StreamingWavPy.runReads region pos sizes).1 =
        (cyclicOuts region off sizes).map some
  | [], pos, off, _, _, _ => by
    rw [StreamingWavPy.runReads, cyclicOuts, List.map_nil]
  | size :: sizes, pos, off, hpos, hmod, hall => by
    obtain ⟨hs1, hs2⟩ := hall size (List.mem_cons_self size sizes)
    obtain ⟨h1, h2, h3⟩ :=
      read_chunk_cyclic region pos size off hne hpos hmod hs1 hs2
    rw [StreamingWavPy.runReads]
    rw [cyclicOuts, List.map_cons]
    rw [runReads_cyclic region hne sizes
      (StreamingWavPy.FileAudioSource.read_chunk true region pos size).2 (off + size)
      h2 h3 (fun s hs => hall s (List.mem_cons_of_mem size hs)), h1]

/-- C1 (amended): for the streaming module's looping `FileAudioSource` over a
non-empty data region, any sequence of `read_chunk` calls whose every request
is positive and at most `file_data_length` and whose requests total
`N * file_data_length` has each call return exactly the requested number of
bytes (looping back to the data start within the same call), and the
concatenation of all returned bytes equals the data region repeated `N`
times, byte for byte. -/
theorem fileLoop_reads_repeat (region sizes : List Nat) (N : Nat)
    (hne : region ≠ [])
    (hall : ∀ s ∈ sizes, 0 < s ∧ s ≤ region.length)
    (hsum : sizes.sum = N * region.length) :
    (StreamingWavPy.runReads region 0 sizes).1.map (Option.map List.length) =
      sizes.map some ∧
    ((StreamingWavPy.runReads region 0 sizes).1.filterMap id).flatten =
      (List.replicate N region).flatten := by
  have hrun := runReads_cyclic region hne sizes 0 0 (Nat.zero_le _) rfl hall
  rw [hrun]
  constructor
  · rw [List.map_map]
    have hcomp : (Option.map List.length ∘ some : List Nat → Option Nat)
        = some ∘ List.length := by
      funext bs
      rfl
    rw [hcomp, ← List.map_map, cyclicOuts_lengths]
  · rw [show ((cyclicOuts region 0 sizes).map some).filterMap id
      = cyclicOuts region 0 sizes from by simp]
    rw [cyclicOuts_flatten, hsum, cyclicBytes_repeat]

theorem fileLoop_reads_repeat_witness :
    (StreamingWavPy.runReads [7, 8] 0 [1, 2, 1]).1.map (Option.map List.length) =
      [1, 2, 1].map some ∧
    ((StreamingWavPy.runReads [7, 8] 0 [1, 2, 1]).1.filterMap id).flatten =
      (List.replicate 2 [7, 8]).flatten :=
  fileLoop_reads_repeat [7, 8] [1, 2, 1] 2 (by decide) (by decide) (by decide)

/-- C1 counterexample, refuting the claim as stated for both cited
`FileAudioSource.read_chunk` implementations.  First, `audio_source.py`:
region `[0,1,2,3]` (4 bytes), `bytes_per_sample = 2`, calls of 1, 2 and 1
frames request `2 + 4 + 2 = 8 = 2 * 4` bytes, yet the second call (file
position 2, requesting 4 bytes) returns the 2-byte short read `[2,3]` with
no loop-back inside the call.  Second, `streaming_wav.py` with a single call
requesting `3 = 3 * file_data_length` bytes on the 1-byte region `[7]`
returns only 2 bytes.  Third, a zero-byte request resets the position, so
requests `[1,0,1]` on region `[0,1]` (totalling `1 * file_data_length`)
concatenate to `[0,0]`, not the data region `[0,1]`. -/
theorem fileLoop_claim_counterexample :
    (AudioSourcePy.FileAudioSource.read_chunk [0, 1, 2, 3] 2 2 2).1 =
      some [2, 3] ∧
    ([2, 3] : List Nat).length ≠ 2 * 2 ∧
    (StreamingWavPy.FileAudioSource.read_chunk true [7] 0 3).1 = some [7, 7] ∧
    ([7, 7] : List Nat).length ≠ 3 ∧
    ((StreamingWavPy.runReads [0, 1] 0 [1, 0, 1]).1.filterMap id).flatten =
      [0, 0] ∧
    ([0, 0] : List Nat) ≠ [0, 1] := by
  decide
